import Mathlib

/-!
Verification of the gptgif encoder (src/gptgif.c): a shallow embedding of
the hex serializer, frame chunker, glyph rasterizer and frame builder,
with theorems about the specified properties.

Machine integers are modelled as `Nat`: every quantity involved (lengths,
capacities, pixel indices, brightness values) is non-negative and far from
any relevant overflow boundary in the executions the claims quantify over.
Fallible operations (the out-of-bounds font access reachable through
`strchr`, the external GIF encoder receiving a failed handle) are modelled
with `Option` / an explicit outcome type.
-/

/-! ## Constants (src/gptgif.c lines 9-17) -/

def WIDTH : Nat := 640

def HEIGHT : Nat := 480

def GLYPH_WIDTH : Nat := 8

def GLYPH_HEIGHT : Nat := 8

def COLS : Nat := WIDTH / GLYPH_WIDTH

def ROWS : Nat := HEIGHT / GLYPH_HEIGHT

def FRAME_CHARS : Nat := COLS * ROWS

def INITIAL_HEX_CAPACITY : Nat := 1024

def COLOR_COUNT : Nat := 256

/-- The hex digit string `"0123456789abcdef"` (src/gptgif.c line 19),
as a list of its 16 characters. -/
def hex_chars : List Char := "0123456789abcdef".toList

/-- The 16 glyph bitmaps, 8 rows of 8 bits each (src/gptgif.c lines 22-39). -/
def font : List (List Nat) :=
  [ [0x00,0x3C,0x66,0x6E,0x76,0x66,0x3C,0x00],
    [0x00,0x18,0x38,0x18,0x18,0x18,0x3C,0x00],
    [0x00,0x3C,0x66,0x0C,0x18,0x30,0x7E,0x00],
    [0x00,0x3C,0x66,0x1C,0x06,0x66,0x3C,0x00],
    [0x00,0x0C,0x1C,0x2C,0x4C,0x7E,0x0C,0x00],
    [0x00,0x7E,0x60,0x7C,0x06,0x66,0x3C,0x00],
    [0x00,0x3C,0x60,0x7C,0x66,0x66,0x3C,0x00],
    [0x00,0x7E,0x06,0x0C,0x18,0x30,0x30,0x00],
    [0x00,0x3C,0x66,0x3C,0x66,0x66,0x3C,0x00],
    [0x00,0x3C,0x66,0x66,0x3E,0x06,0x3C,0x00],
    [0x00,0x3C,0x06,0x3E,0x66,0x66,0x3E,0x00],
    [0x00,0x60,0x60,0x7C,0x66,0x66,0x7C,0x00],
    [0x00,0x3C,0x60,0x60,0x60,0x60,0x3C,0x00],
    [0x00,0x06,0x06,0x3E,0x66,0x66,0x3E,0x00],
    [0x00,0x3C,0x66,0x7E,0x60,0x60,0x3C,0x00],
    [0x00,0x1C,0x30,0x30,0x7C,0x30,0x30,0x00] ]

/-- Models `strchr(hex_chars, c)` followed by `match - hex_chars`
(src/gptgif.c line 42).  Per the C standard the terminating null character
is part of the searched string, so the NUL character matches at index 16;
any other character absent from the 16 digits yields no match (`none`). -/
def strchr_hex (c : Char) : Option Nat :=
  List.findIdx? (fun d => d == c) (hex_chars ++ [Char.ofNat 0])

/-! ## Frame chunker / driver loop (src/gptgif.c lines 118-121) -/

/-- The driver loop of `main`: starting at `offset`, while `offset <
hex_len` it takes a chunk of `min FRAME_CHARS (hex_len - offset)`
characters at `offset` (the C passes `&hex[offset]` with that length) and
advances by `FRAME_CHARS`.  Returns the list of chunks, one per emitted
frame, in emission order. -/
def chunkLoop (hex : List Char) (offset : Nat) : List (List Char) :=
  if offset < hex.length then
    ((hex.drop offset).take FRAME_CHARS) :: chunkLoop hex (offset + FRAME_CHARS)
  else []
termination_by hex.length - offset
decreasing_by
  simp [FRAME_CHARS, COLS, ROWS, WIDTH, HEIGHT, GLYPH_WIDTH, GLYPH_HEIGHT]
  omega

theorem FRAME_CHARS_eq : FRAME_CHARS = 4800 := rfl

theorem chunkLoop_length_aux (hex : List Char) :
    ∀ n offset, hex.length ≤ offset + n →
      (chunkLoop hex offset).length =
        (hex.length - offset + FRAME_CHARS - 1) / FRAME_CHARS := by
  intro n
  induction n with
  | zero =>
    intro offset h
    rw [chunkLoop, if_neg (by omega), FRAME_CHARS_eq]
    simp only [List.length_nil]
    omega
  | succ n ih =>
    intro offset h
    by_cases hofs : offset < hex.length
    · rw [chunkLoop, if_pos hofs, List.length_cons,
        ih (offset + FRAME_CHARS) (by rw [FRAME_CHARS_eq]; omega),
        FRAME_CHARS_eq]
      omega
    · rw [chunkLoop, if_neg hofs, FRAME_CHARS_eq]
      simp only [List.length_nil]
      omega

theorem chunkLoop_length (hex : List Char) (offset : Nat) :
    (chunkLoop hex offset).length =
      (hex.length - offset + FRAME_CHARS - 1) / FRAME_CHARS :=
  chunkLoop_length_aux hex hex.length offset (by omega)

theorem chunkLoop_sum_aux (hex : List Char) :
    ∀ n offset, hex.length ≤ offset + n →
      ((chunkLoop hex offset).map List.length).sum = hex.length - offset := by
  intro n
  induction n with
  | zero =>
    intro offset h
    rw [chunkLoop, if_neg (by omega)]
    simp
    omega
  | succ n ih =>
    intro offset h
    by_cases hofs : offset < hex.length
    · rw [chunkLoop, if_pos hofs]
      simp only [List.map_cons, List.sum_cons,
        ih (offset + FRAME_CHARS) (by rw [FRAME_CHARS_eq]; omega),
        List.length_take, List.length_drop]
      rw [FRAME_CHARS_eq] at *
      omega
    · rw [chunkLoop, if_neg hofs]
      simp
      omega

theorem chunkLoop_sum (hex : List Char) (offset : Nat) :
    ((chunkLoop hex offset).map List.length).sum = hex.length - offset :=
  chunkLoop_sum_aux hex hex.length offset (by omega)

theorem chunkLoop_getD (hex : List Char) :
    ∀ k offset, offset + k * FRAME_CHARS < hex.length →
      (chunkLoop hex offset).getD k [] =
        (hex.drop (offset + k * FRAME_CHARS)).take FRAME_CHARS := by
  intro k
  induction k with
  | zero =>
    intro offset h
    simp only [Nat.zero_mul, Nat.add_zero] at h ⊢
    rw [chunkLoop, if_pos h]
    rfl
  | succ k ih =>
    intro offset h
    have hofs : offset < hex.length := by
      have := h
      rw [FRAME_CHARS_eq] at this
      omega
    rw [chunkLoop, if_pos hofs]
    have harith : offset + FRAME_CHARS + k * FRAME_CHARS =
        offset + (k + 1) * FRAME_CHARS := by
      rw [FRAME_CHARS_eq]
      omega
    have hrec := ih (offset + FRAME_CHARS) (by rw [harith]; exact h)
    simpa [harith] using hrec

/-- C1: the number of frames emitted by the driver loop is
`ceil(hex_length / FRAME_CHARS)`, and zero when the hex buffer is empty. -/
theorem driver_frame_count (hex : List Char) :
    (chunkLoop hex 0).length = (hex.length + FRAME_CHARS - 1) / FRAME_CHARS ∧
      (hex.length = 0 → (chunkLoop hex 0).length = 0) := by
  have h := chunkLoop_length hex 0
  constructor
  · simpa using h
  · intro h0
    rw [h, h0, FRAME_CHARS_eq]

theorem driver_frame_count_witness :
    (chunkLoop [] 0).length = (List.length ([] : List Char) + FRAME_CHARS - 1) / FRAME_CHARS ∧
      (chunkLoop [] 0).length = 0 :=
  ⟨(driver_frame_count []).1, (driver_frame_count []).2 rfl⟩

/-- C2: the driver partitions the hex buffer into ordered contiguous
chunks: chunk `k` is the `FRAME_CHARS`-bounded slice starting at offset
`k * FRAME_CHARS`, every chunk except possibly the last has length exactly
`FRAME_CHARS`, the last has length `min FRAME_CHARS remaining`, and the
chunk lengths sum to the hex buffer length. -/
theorem driver_chunk_partition (hex : List Char) :
    (∀ k, k * FRAME_CHARS < hex.length →
        (chunkLoop hex 0).getD k [] =
          (hex.drop (k * FRAME_CHARS)).take FRAME_CHARS) ∧
      (∀ k, k + 1 < (chunkLoop hex 0).length →
        ((chunkLoop hex 0).getD k []).length = FRAME_CHARS) ∧
      (chunkLoop hex 0 ≠ [] →
        ((chunkLoop hex 0).getD ((chunkLoop hex 0).length - 1) []).length =
          min FRAME_CHARS
            (hex.length - ((chunkLoop hex 0).length - 1) * FRAME_CHARS)) ∧
      ((chunkLoop hex 0).map List.length).sum = hex.length := by
  have hlen := chunkLoop_length hex 0
  refine ⟨?_, ?_, ?_, ?_⟩
  · intro k hk
    have := chunkLoop_getD hex k 0 (by omega)
    simpa using this
  · intro k hk
    rw [hlen, FRAME_CHARS_eq] at hk
    have hk2 : k * FRAME_CHARS < hex.length := by
      rw [FRAME_CHARS_eq]
      omega
    have hgd := chunkLoop_getD hex k 0 (by omega)
    simp only [Nat.zero_add] at hgd
    rw [hgd]
    simp only [List.length_take, List.length_drop]
    rw [FRAME_CHARS_eq] at *
    omega
  · intro hne
    have hpos : 0 < hex.length := by
      rcases Nat.eq_zero_or_pos hex.length with h0 | h
      · exfalso
        exact hne (by rw [chunkLoop, if_neg (by omega)])
      · exact h
    have hlast : ((chunkLoop hex 0).length - 1) * FRAME_CHARS < hex.length := by
      rw [hlen, FRAME_CHARS_eq] at *
      omega
    have hgd := chunkLoop_getD hex ((chunkLoop hex 0).length - 1) 0 (by omega)
    simp only [Nat.zero_add] at hgd
    rw [hgd]
    simp only [List.length_take, List.length_drop]
  · exact (chunkLoop_sum hex 0).trans (by omega)

theorem driver_chunk_partition_witness :
    ((chunkLoop (List.replicate 4801 '0') 0).getD 1 [] =
        ((List.replicate 4801 '0').drop (1 * FRAME_CHARS)).take FRAME_CHARS) ∧
      ((chunkLoop (List.replicate 4801 '0') 0).getD 0 []).length = FRAME_CHARS ∧
      ((chunkLoop (List.replicate 4801 '0') 0).getD
          ((chunkLoop (List.replicate 4801 '0') 0).length - 1) []).length =
        min FRAME_CHARS
          ((List.replicate 4801 '0').length -
            ((chunkLoop (List.replicate 4801 '0') 0).length - 1) * FRAME_CHARS) ∧
      ((chunkLoop (List.replicate 4801 '0') 0).map List.length).sum =
        (List.replicate 4801 '0').length :=
  ⟨(driver_chunk_partition _).1 1
     (by rw [List.length_replicate, FRAME_CHARS_eq]; omega),
   (driver_chunk_partition _).2.1 0
     (by rw [chunkLoop_length, List.length_replicate, FRAME_CHARS_eq]; omega),
   (driver_chunk_partition _).2.2.1
     (by
       intro hemp
       have hl := chunkLoop_length (List.replicate 4801 '0') 0
       rw [hemp, List.length_replicate, FRAME_CHARS_eq] at hl
       simp only [List.length_nil] at hl
       omega),
   (driver_chunk_partition _).2.2.2⟩

/-! ## Hex serializer (src/gptgif.c lines 75-98) -/

/-- One byte's two-character append,
`snprintf(&hex[hex_len], 3, "%02x", c)` (src/gptgif.c line 94): the two
lowercase hex digits drawn from `hex_chars`.  `fgetc` only yields byte
values `0..255`, for which `b / 16` and `b % 16` are the two `%02x`
digits. -/
def hexPair (b : Nat) : List Char :=
  [hex_chars.getD (b / 16) '0', hex_chars.getD (b % 16) '0']

/-- The per-file byte loop (src/gptgif.c lines 83-96): append each byte's
two hex digits in file order. -/
def serializeFile (acc : List Char) (bytes : List Nat) : List Char :=
  bytes.foldl (fun a b => a ++ hexPair b) acc

/-- One iteration of the file loop (src/gptgif.c lines 79-98): a file that
cannot be opened (`none`, `fopen` failed) is skipped with `continue`; a
readable file contributes its bytes' hex expansion. -/
def serializeStep (acc : List Char) (file : Option (List Nat)) : List Char :=
  match file with
  | none => acc
  | some bytes => serializeFile acc bytes

/-- The whole hex serialization pass of `main`: contents of the hex buffer
after all input files are processed.  Reallocation only moves the buffer,
never changes its contents, so contents are modelled independently of
capacity (capacity is modelled by `hexBufAfter`). -/
def serializeHex (files : List (Option (List Nat))) : List Char :=
  files.foldl serializeStep []

/-- Modelled from the spec: the canonical two-character lowercase
zero-padded hexadecimal representation of a byte, written from the spec's
words for the refinement comparison with `hexPair`. -/
def specByteHex (b : Nat) : List Char :=
  [Nat.digitChar (b / 16), Nat.digitChar (b % 16)]

set_option maxRecDepth 4000 in
theorem hexPair_canonical : ∀ b, b < 256 → hexPair b = specByteHex b := by
  decide

theorem serializeFile_eq (bytes : List Nat) :
    ∀ acc, serializeFile acc bytes = acc ++ bytes.flatMap hexPair := by
  induction bytes with
  | nil =>
    intro acc
    simp [serializeFile]
  | cons b t ih =>
    intro acc
    simp only [serializeFile, List.foldl_cons] at *
    rw [ih (acc ++ hexPair b)]
    simp [List.append_assoc]

theorem serializeHex_aux (files : List (Option (List Nat))) :
    ∀ acc, files.foldl serializeStep acc =
      acc ++ (files.filterMap id).flatMap (fun bytes => bytes.flatMap hexPair) := by
  induction files with
  | nil =>
    intro acc
    simp
  | cons f t ih =>
    intro acc
    cases f with
    | none =>
      simp only [List.foldl_cons, serializeStep]
      rw [ih]
      simp
    | some bytes =>
      simp only [List.foldl_cons, serializeStep]
      rw [serializeFile_eq, ih]
      simp [List.append_assoc]

theorem flatMap_hexPair_congr (bytes : List Nat) (hb : ∀ b ∈ bytes, b < 256) :
    bytes.flatMap hexPair = bytes.flatMap specByteHex := by
  induction bytes with
  | nil => rfl
  | cons b t ih =>
    simp only [List.flatMap_cons]
    rw [hexPair_canonical b (hb b (by simp)),
      ih (fun x hx => hb x (by simp [hx]))]

theorem flatMap_hexPair_length (bytes : List Nat) :
    (bytes.flatMap hexPair).length = 2 * bytes.length := by
  induction bytes with
  | nil => rfl
  | cons b t ih =>
    simp only [List.flatMap_cons, List.length_append, ih, List.length_cons]
    simp [hexPair]
    omega

theorem flatMap_files_congr (l : List (List Nat))
    (hb : ∀ bytes ∈ l, ∀ b ∈ bytes, b < 256) :
    l.flatMap (fun bytes => bytes.flatMap hexPair) =
      l.flatMap (fun bytes => bytes.flatMap specByteHex) := by
  induction l with
  | nil => rfl
  | cons bytes t ih =>
    simp only [List.flatMap_cons]
    rw [flatMap_hexPair_congr bytes (hb bytes (by simp)),
      ih (fun bs hbs x hx => hb bs (by simp [hbs]) x hx)]

theorem flatMap_files_length (l : List (List Nat)) :
    (l.flatMap (fun bytes => bytes.flatMap hexPair)).length =
      2 * (l.map List.length).sum := by
  induction l with
  | nil => rfl
  | cons bytes t ih =>
    simp only [List.flatMap_cons, List.length_append, List.map_cons,
      List.sum_cons, flatMap_hexPair_length, ih]
    omega

/-- C3: the hex buffer is the concatenation, in file-then-byte order over
the readable files, of each byte's canonical two-character lowercase
zero-padded hexadecimal representation, and its length is twice the sum of
the readable files' byte counts. -/
theorem hex_serializer_canonical (files : List (Option (List Nat)))
    (hb : ∀ bytes ∈ files.filterMap id, ∀ b ∈ bytes, b < 256) :
    serializeHex files =
      (files.filterMap id).flatMap (fun bytes => bytes.flatMap specByteHex) ∧
      (serializeHex files).length =
        2 * ((files.filterMap id).map List.length).sum := by
  have hfold := serializeHex_aux files []
  rw [serializeHex, hfold, List.nil_append]
  exact ⟨flatMap_files_congr _ hb, flatMap_files_length _⟩

theorem hex_serializer_canonical_witness :
    serializeHex [some [0x41], none, some [255, 0]] =
      (([some [0x41], none, some [255, 0]] :
          List (Option (List Nat))).filterMap id).flatMap
        (fun bytes => bytes.flatMap specByteHex) ∧
      (serializeHex [some [0x41], none, some [255, 0]]).length =
        2 * ((([some [0x41], none, some [255, 0]] :
          List (Option (List Nat))).filterMap id).map List.length).sum :=
  hex_serializer_canonical [some [0x41], none, some [255, 0]] (by decide)

/-! ## Hex buffer growth (src/gptgif.c lines 75-96) -/

/-- Length and capacity of the growing hex buffer; the initial
`malloc(INITIAL_HEX_CAPACITY)` is assumed to have succeeded. -/
structure HexBuf where
  len : Nat
  cap : Nat

/-- The growth check at the top of the byte loop (src/gptgif.c lines
84-93): if `hex_len + 2 >= hex_capacity` the capacity is doubled
(`hex_capacity *= 2`); on `realloc` failure the process exits before any
further write, so the modelled state machine only follows the successful
path. -/
def growIfNeeded (s : HexBuf) : HexBuf :=
  if s.cap ≤ s.len + 2 then { s with cap := s.cap * 2 } else s

/-- One iteration of the byte loop: conditional growth, then the
two-character append `hex_len += 2` (src/gptgif.c lines 94-95). -/
def appendHexByte (s : HexBuf) : HexBuf :=
  { growIfNeeded s with len := (growIfNeeded s).len + 2 }

/-- Buffer state after serializing a stream of bytes, starting from the
empty buffer with the initial capacity (src/gptgif.c lines 75-77). -/
def hexBufAfter (bytes : List Nat) : HexBuf :=
  bytes.foldl (fun s _ => appendHexByte s) { len := 0, cap := INITIAL_HEX_CAPACITY }

/-- The inductive invariant of the growth loop: even length strictly below
an even capacity of at least 4. -/
def hexBufInv (s : HexBuf) : Prop :=
  s.len % 2 = 0 ∧ s.len < s.cap ∧ s.cap % 2 = 0 ∧ 4 ≤ s.cap

theorem hexBufInv_append (s : HexBuf) (h : hexBufInv s) :
    hexBufInv (appendHexByte s) := by
  obtain ⟨h1, h2, h3, h4⟩ := h
  unfold hexBufInv appendHexByte growIfNeeded
  by_cases hg : s.cap ≤ s.len + 2
  · rw [if_pos hg]
    dsimp only
    omega
  · rw [if_neg hg]
    dsimp only
    omega

theorem hexBufInv_fold (bytes : List Nat) :
    ∀ s : HexBuf, hexBufInv s →
      hexBufInv (bytes.foldl (fun s _ => appendHexByte s) s) := by
  induction bytes with
  | nil => exact fun s hs => hs
  | cons b t ih => exact fun s hs => ih _ (hexBufInv_append s hs)

theorem hexBufInv_after (bytes : List Nat) : hexBufInv (hexBufAfter bytes) :=
  hexBufInv_fold bytes _ (by constructor <;> simp [hexBufInv, INITIAL_HEX_CAPACITY])

theorem growIfNeeded_len (s : HexBuf) : (growIfNeeded s).len = s.len := by
  unfold growIfNeeded
  split <;> rfl

/-- C10: assuming the initial allocation succeeded, before every
two-character append (that is, after the conditional doubling) the state
satisfies `hex_len + 2 < hex_capacity`, so the three bytes written at
`hex_len`, `hex_len + 1` and `hex_len + 2` are in bounds, and after the
append `hex_len < hex_capacity` still holds. -/
theorem hex_append_capacity_invariant (bytes : List Nat) :
    (growIfNeeded (hexBufAfter bytes)).len + 2 <
        (growIfNeeded (hexBufAfter bytes)).cap ∧
      (growIfNeeded (hexBufAfter bytes)).len = (hexBufAfter bytes).len ∧
      (appendHexByte (hexBufAfter bytes)).len <
        (appendHexByte (hexBufAfter bytes)).cap := by
  obtain ⟨h1, h2, h3, h4⟩ := hexBufInv_after bytes
  have hgrow : (growIfNeeded (hexBufAfter bytes)).len + 2 <
      (growIfNeeded (hexBufAfter bytes)).cap := by
    unfold growIfNeeded
    by_cases hg : (hexBufAfter bytes).cap ≤ (hexBufAfter bytes).len + 2
    · rw [if_pos hg]
      dsimp only
      omega
    · rw [if_neg hg]
      omega
  refine ⟨hgrow, growIfNeeded_len _, ?_⟩
  unfold appendHexByte
  dsimp only
  omega

/-! ## Character rasterizer (src/gptgif.c lines 41-54) -/

/-- The destination pixel index computed by `draw_char`:
`idx = (y + dy) * WIDTH + (x + dx)` (src/gptgif.c line 47). -/
def pixel_index (x y dx dy : Nat) : Nat :=
  (y + dy) * WIDTH + (x + dx)

/-- A single raster store `raster[i] = v`; the raster is modelled as a
total map from pixel index to palette index. -/
def updatePixel (r : Nat → Nat) (i v : Nat) : Nat → Nat :=
  fun j => if j = i then v else r j

/-- Row `dy` of glyph number `gi` of the font table. -/
def glyphRow (gi dy : Nat) : Nat :=
  (font.getD gi []).getD dy 0

/-- The inner `dx` loop body of `draw_char` (src/gptgif.c lines 46-52): if
bit `7 - dx` of the glyph row is set, store brightness
`32 + ((frame + dy + dx) % 223)` at `pixel_index x y dx dy`. -/
def rowStep (x y dy row frame : Nat) (r : Nat → Nat) (dx : Nat) : Nat → Nat :=
  if Nat.testBit row (7 - dx) then
    updatePixel r (pixel_index x y dx dy) (32 + ((frame + dy + dx) % 223))
  else r

/-- The outer `dy` loop body of `draw_char` (src/gptgif.c lines 45-53):
run the inner loop over `dx = 0 .. GLYPH_WIDTH - 1`. -/
def glyphStep (x y frame gi : Nat) (r : Nat → Nat) (dy : Nat) : Nat → Nat :=
  (List.range GLYPH_WIDTH).foldl (rowStep x y dy (glyphRow gi dy) frame) r

/-- `draw_char` (src/gptgif.c lines 41-54).  `strchr` decides the glyph
index; no match is a silent no-op (`return`).  The C performs `font[match
- hex_chars]` without a bound check: for the NUL character the index is
16, one past the 16-entry font table, an out-of-bounds read with undefined
behavior, modelled as failure (`none`). -/
def draw_char (raster : Nat → Nat) (x y : Nat) (c : Char) (frame : Nat) :
    Option (Nat → Nat) :=
  match strchr_hex c with
  | none => some raster
  | some gi =>
    if gi < font.length then
      some ((List.range GLYPH_HEIGHT).foldl (glyphStep x y frame gi) raster)
    else none

theorem pixel_index_inj_dx (x y dy dx dx' : Nat)
    (h : pixel_index x y dx' dy = pixel_index x y dx dy) : dx' = dx := by
  unfold pixel_index at h
  omega

theorem pixel_index_ne_of_dy_ne (x y dx dx' dy dy' : Nat)
    (hdx : dx < GLYPH_WIDTH) (hdx' : dx' < GLYPH_WIDTH) (hne : dy' ≠ dy) :
    pixel_index x y dx' dy' ≠ pixel_index x y dx dy := by
  unfold pixel_index WIDTH GLYPH_WIDTH at *
  omega

theorem rowFold_untouched (x y dy row frame : Nat) (l : List Nat) :
    ∀ r j, (∀ dx ∈ l, pixel_index x y dx dy ≠ j) →
      (l.foldl (rowStep x y dy row frame) r) j = r j := by
  induction l with
  | nil =>
    intro r j _
    rfl
  | cons a t ih =>
    intro r j h
    simp only [List.foldl_cons]
    rw [ih _ j (fun dx hdx => h dx (by simp [hdx]))]
    unfold rowStep
    split
    · unfold updatePixel
      rw [if_neg (fun hj => h a (by simp) hj.symm)]
    · rfl

theorem rowFold_hit (x y dy row frame : Nat) (l : List Nat) :
    ∀ r dx, dx ∈ l → l.Nodup → Nat.testBit row (7 - dx) = true →
      (l.foldl (rowStep x y dy row frame) r) (pixel_index x y dx dy) =
        32 + ((frame + dy + dx) % 223) := by
  induction l with
  | nil =>
    intro r dx hmem
    exact absurd hmem (List.not_mem_nil dx)
  | cons a t ih =>
    intro r dx hmem hnd hbit
    simp only [List.foldl_cons]
    rcases List.mem_cons.mp hmem with heq | ht
    · subst heq
      have hnotin : dx ∉ t := (List.nodup_cons.mp hnd).1
      have hunt := rowFold_untouched x y dy row frame t
        (rowStep x y dy row frame r dx) (pixel_index x y dx dy)
        (fun dx' hdx' hpe =>
          hnotin ((pixel_index_inj_dx x y dy dx dx' hpe) ▸ hdx'))
      rw [hunt]
      unfold rowStep
      rw [if_pos hbit]
      unfold updatePixel
      simp
    · exact ih _ dx ht (List.nodup_cons.mp hnd).2 hbit

theorem glyphFold_untouched (x y frame gi : Nat) (l : List Nat) :
    ∀ r j, (∀ dy ∈ l, ∀ dx, dx < GLYPH_WIDTH → pixel_index x y dx dy ≠ j) →
      (l.foldl (glyphStep x y frame gi) r) j = r j := by
  induction l with
  | nil =>
    intro r j _
    rfl
  | cons a t ih =>
    intro r j h
    simp only [List.foldl_cons]
    rw [ih _ j (fun dy hdy dx hdx => h dy (by simp [hdy]) dx hdx)]
    unfold glyphStep
    exact rowFold_untouched x y a (glyphRow gi a) frame _ r j
      (fun dx hdx => h a (by simp) dx (List.mem_range.mp hdx))

theorem glyphFold_hit (x y frame gi : Nat) (l : List Nat) :
    ∀ r dy dx, dy ∈ l → l.Nodup → dx < GLYPH_WIDTH →
      Nat.testBit (glyphRow gi dy) (7 - dx) = true →
      (l.foldl (glyphStep x y frame gi) r) (pixel_index x y dx dy) =
        32 + ((frame + dy + dx) % 223) := by
  induction l with
  | nil =>
    intro r dy dx hmem
    exact absurd hmem (List.not_mem_nil dy)
  | cons a t ih =>
    intro r dy dx hmem hnd hdx hbit
    simp only [List.foldl_cons]
    rcases List.mem_cons.mp hmem with heq | ht
    · subst heq
      have hnotin : dy ∉ t := (List.nodup_cons.mp hnd).1
      have hunt := glyphFold_untouched x y frame gi t
        (glyphStep x y frame gi r dy) (pixel_index x y dx dy)
        (fun dy' hdy' dx' hdx' =>
          pixel_index_ne_of_dy_ne x y dx dx' dy dy' hdx hdx'
            (fun hdyeq => hnotin (hdyeq ▸ hdy')))
      rw [hunt]
      unfold glyphStep
      exact rowFold_hit x y dy (glyphRow gi dy) frame _ r dx
        (List.mem_range.mpr hdx) (List.nodup_range _) hbit
    · exact ih _ dy dx ht (List.nodup_cons.mp hnd).2 hdx hbit

theorem draw_char_some (r : Nat → Nat) (x y : Nat) (c : Char) (frame gi : Nat)
    (hsc : strchr_hex c = some gi) (hgi : gi < font.length) :
    draw_char r x y c frame =
      some ((List.range GLYPH_HEIGHT).foldl (glyphStep x y frame gi) r) := by
  unfold draw_char
  rw [hsc]
  exact if_pos hgi

theorem draw_char_no_match (r : Nat → Nat) (x y : Nat) (c : Char)
    (frame : Nat) (h : strchr_hex c = none) :
    draw_char r x y c frame = some r := by
  unfold draw_char
  rw [h]

theorem draw_char_oob (r : Nat → Nat) (x y : Nat) (c : Char)
    (frame gi : Nat) (hsc : strchr_hex c = some gi)
    (hgi : ¬gi < font.length) :
    draw_char r x y c frame = none := by
  unfold draw_char
  rw [hsc]
  exact if_neg hgi

theorem draw_char_untouched (r : Nat → Nat) (x y : Nat) (c : Char)
    (frame j : Nat)
    (h : ∀ dy, dy < GLYPH_HEIGHT → ∀ dx, dx < GLYPH_WIDTH →
      pixel_index x y dx dy ≠ j) :
    ∀ r', draw_char r x y c frame = some r' → r' j = r j := by
  intro r' heq
  cases hsc : strchr_hex c with
  | none =>
    rw [draw_char_no_match r x y c frame hsc] at heq
    injection heq with heq
    rw [← heq]
  | some gi =>
    by_cases hgi : gi < font.length
    · rw [draw_char_some r x y c frame gi hsc hgi] at heq
      injection heq with heq
      rw [← heq]
      exact glyphFold_untouched x y frame gi _ r j
        (fun dy hdy dx hdx => h dy (List.mem_range.mp hdy) dx hdx)
    · rw [draw_char_oob r x y c frame gi hsc hgi] at heq
      exact absurd heq (by simp)

/-- C5: for every frame index and every glyph pixel at local offset
`(dx, dy)` whose font bit is set, the value `draw_char` writes into the
raster is exactly `32 + ((frame + dy + dx) % 223)`, which is never 0. -/
theorem draw_char_gradient_value (r : Nat → Nat) (x y : Nat) (c : Char)
    (frame gi dy dx : Nat)
    (hsc : strchr_hex c = some gi) (hgi : gi < font.length)
    (hdy : dy < GLYPH_HEIGHT) (hdx : dx < GLYPH_WIDTH)
    (hbit : Nat.testBit (glyphRow gi dy) (7 - dx) = true) :
    ∃ r', draw_char r x y c frame = some r' ∧
      r' (pixel_index x y dx dy) = 32 + ((frame + dy + dx) % 223) ∧
      32 + ((frame + dy + dx) % 223) ≠ 0 :=
  ⟨_, draw_char_some r x y c frame gi hsc hgi,
    glyphFold_hit x y frame gi (List.range GLYPH_HEIGHT) r dy dx
      (List.mem_range.mpr hdy) (List.nodup_range _) hdx hbit,
    by omega⟩

theorem draw_char_gradient_value_witness :
    ∃ r', draw_char (fun _ => 0) 0 0 '0' 0 = some r' ∧
      r' (pixel_index 0 0 2 1) = 32 + ((0 + 1 + 2) % 223) ∧
      32 + ((0 + 1 + 2) % 223) ≠ 0 :=
  draw_char_gradient_value (fun _ => 0) 0 0 '0' 0 0 1 2
    (by decide) (by decide) (by decide) (by decide) (by decide)

/-- C6 fails on the NUL character: `strchr` matches the terminating NUL of
`hex_chars` at index 16, so the code reads `font[16]`, out of bounds of
the 16-entry table — undefined behavior (modelled as `none`) instead of
the silent no-op the contract requires. -/
theorem draw_char_nul_out_of_bounds :
    draw_char (fun _ => 0) 0 0 (Char.ofNat 0) 0 = none :=
  draw_char_oob (fun _ => 0) 0 0 (Char.ofNat 0) 0 16 (by decide) (by decide)

/-- C7: every pixel index the rasterizer computes at the placement derived
from a chunk position `i < FRAME_CHARS` lies inside the canvas buffer. -/
theorem glyph_pixels_in_bounds (i dy dx : Nat) (hi : i < FRAME_CHARS)
    (hdy : dy < GLYPH_HEIGHT) (hdx : dx < GLYPH_WIDTH) :
    pixel_index ((i % COLS) * GLYPH_WIDTH) ((i / COLS) * GLYPH_HEIGHT) dx dy <
      WIDTH * HEIGHT := by
  unfold pixel_index FRAME_CHARS COLS ROWS WIDTH HEIGHT GLYPH_WIDTH GLYPH_HEIGHT at *
  omega

theorem glyph_pixels_in_bounds_witness :
    pixel_index ((0 % COLS) * GLYPH_WIDTH) ((0 / COLS) * GLYPH_HEIGHT) 0 0 <
      WIDTH * HEIGHT :=
  glyph_pixels_in_bounds 0 0 0 (by decide) (by decide) (by decide)

/-! ## Frame builder (src/gptgif.c lines 56-67) -/

/-- The body of the glyph loop of `draw_frame` (src/gptgif.c lines 61-64):
for chunk position `i`, `row = i / COLS`, `col = i % COLS`, and the glyph
for `data[i]` is rasterized at pixel origin
`(col * GLYPH_WIDTH, row * GLYPH_HEIGHT)`. -/
def frameStep (data : List Char) (frame : Nat) (acc : Option (Nat → Nat))
    (i : Nat) : Option (Nat → Nat) :=
  acc.bind fun r =>
    draw_char r ((i % COLS) * GLYPH_WIDTH) ((i / COLS) * GLYPH_HEIGHT)
      (data.getD i (Char.ofNat 0)) frame

/-- The raster produced by `draw_frame` (src/gptgif.c lines 56-67): the
canvas starts as the `calloc`ed all-zero buffer, then one `draw_char` is
performed per chunk position `i` with `i < len && i < FRAME_CHARS`. -/
def draw_frame_raster (data : List Char) (frame : Nat) : Option (Nat → Nat) :=
  (List.range (min data.length FRAME_CHARS)).foldl (frameStep data frame)
    (some fun _ => 0)

theorem cell_pixel_ne (i i' dx dy dx' dy' : Nat) (hne : i' ≠ i)
    (hi : i < FRAME_CHARS) (hi' : i' < FRAME_CHARS)
    (hdy : dy < GLYPH_HEIGHT) (hdx : dx < GLYPH_WIDTH)
    (hdy' : dy' < GLYPH_HEIGHT) (hdx' : dx' < GLYPH_WIDTH) :
    pixel_index ((i' % COLS) * GLYPH_WIDTH) ((i' / COLS) * GLYPH_HEIGHT) dx' dy' ≠
      pixel_index ((i % COLS) * GLYPH_WIDTH) ((i / COLS) * GLYPH_HEIGHT) dx dy := by
  unfold pixel_index FRAME_CHARS COLS ROWS WIDTH HEIGHT GLYPH_WIDTH GLYPH_HEIGHT at *
  omega

theorem frameFold_none (data : List Char) (frame : Nat) (l : List Nat) :
    l.foldl (frameStep data frame) none = none := by
  induction l with
  | nil => rfl
  | cons a t ih => exact ih

theorem frameFold_untouched (data : List Char) (frame : Nat) (l : List Nat) :
    ∀ r r' j,
      (∀ i ∈ l, ∀ dy, dy < GLYPH_HEIGHT → ∀ dx, dx < GLYPH_WIDTH →
        pixel_index ((i % COLS) * GLYPH_WIDTH) ((i / COLS) * GLYPH_HEIGHT) dx dy ≠ j) →
      l.foldl (frameStep data frame) (some r) = some r' → r' j = r j := by
  induction l with
  | nil =>
    intro r r' j _ heq
    injection heq with heq
    rw [← heq]
  | cons a t ih =>
    intro r r' j h heq
    simp only [List.foldl_cons] at heq
    cases hstep : draw_char r ((a % COLS) * GLYPH_WIDTH)
        ((a / COLS) * GLYPH_HEIGHT) (data.getD a (Char.ofNat 0)) frame with
    | none =>
      rw [show frameStep data frame (some r) a = draw_char r ((a % COLS) * GLYPH_WIDTH)
            ((a / COLS) * GLYPH_HEIGHT) (data.getD a (Char.ofNat 0)) frame from rfl,
          hstep] at heq
      rw [frameFold_none data frame t] at heq
      exact absurd heq (by simp)
    | some r1 =>
      rw [show frameStep data frame (some r) a = draw_char r ((a % COLS) * GLYPH_WIDTH)
            ((a / COLS) * GLYPH_HEIGHT) (data.getD a (Char.ofNat 0)) frame from rfl,
          hstep] at heq
      have h1 : r1 j = r j :=
        draw_char_untouched r _ _ _ frame j
          (fun dy hdy dx hdx => h a (by simp) dy hdy dx hdx) r1 hstep
      rw [ih r1 r' j (fun i hi dy hdy dx hdx => h i (by simp [hi]) dy hdy dx hdx) heq]
      exact h1

theorem frameFold_hit (data : List Char) (frame : Nat) (l : List Nat) :
    ∀ r r' i gi dy dx, i ∈ l → l.Nodup →
      (∀ i', i' ∈ l → i' < FRAME_CHARS) →
      strchr_hex (data.getD i (Char.ofNat 0)) = some gi →
      gi < font.length →
      dy < GLYPH_HEIGHT → dx < GLYPH_WIDTH →
      Nat.testBit (glyphRow gi dy) (7 - dx) = true →
      l.foldl (frameStep data frame) (some r) = some r' →
      r' (pixel_index ((i % COLS) * GLYPH_WIDTH) ((i / COLS) * GLYPH_HEIGHT) dx dy) =
        32 + ((frame + dy + dx) % 223) := by
  induction l with
  | nil =>
    intro r r' i gi dy dx hmem
    exact absurd hmem (List.not_mem_nil i)
  | cons a t ih =>
    intro r r' i gi dy dx hmem hnd hbound hsc hgi hdy hdx hbit heq
    simp only [List.foldl_cons] at heq
    rcases List.mem_cons.mp hmem with hhead | ht
    · subst hhead
      have hstep := draw_char_some r ((i % COLS) * GLYPH_WIDTH)
        ((i / COLS) * GLYPH_HEIGHT) (data.getD i (Char.ofNat 0)) frame gi hsc hgi
      rw [show frameStep data frame (some r) i = draw_char r ((i % COLS) * GLYPH_WIDTH)
            ((i / COLS) * GLYPH_HEIGHT) (data.getD i (Char.ofNat 0)) frame from rfl,
          hstep] at heq
      have hnotin : i ∉ t := (List.nodup_cons.mp hnd).1
      have huntouched := frameFold_untouched data frame t _ r' _
        (fun i' hi' dy' hdy' dx' hdx' =>
          cell_pixel_ne i i' dx dy dx' dy'
            (fun hieq => hnotin (hieq ▸ hi'))
            (hbound i (by simp)) (hbound i' (by simp [hi']))
            hdy hdx hdy' hdx') heq
      rw [huntouched]
      exact glyphFold_hit ((i % COLS) * GLYPH_WIDTH) ((i / COLS) * GLYPH_HEIGHT)
        frame gi (List.range GLYPH_HEIGHT) r dy dx
        (List.mem_range.mpr hdy) (List.nodup_range _) hdx hbit
    · cases hstep : draw_char r ((a % COLS) * GLYPH_WIDTH)
          ((a / COLS) * GLYPH_HEIGHT) (data.getD a (Char.ofNat 0)) frame with
      | none =>
        rw [show frameStep data frame (some r) a = draw_char r ((a % COLS) * GLYPH_WIDTH)
            ((a / COLS) * GLYPH_HEIGHT) (data.getD a (Char.ofNat 0)) frame from rfl,
          hstep] at heq
        rw [frameFold_none data frame t] at heq
        exact absurd heq (by simp)
      | some r1 =>
        rw [show frameStep data frame (some r) a = draw_char r ((a % COLS) * GLYPH_WIDTH)
            ((a / COLS) * GLYPH_HEIGHT) (data.getD a (Char.ofNat 0)) frame from rfl,
          hstep] at heq
        exact ih r1 r' i gi dy dx ht (List.nodup_cons.mp hnd).2
          (fun i' hi' => hbound i' (by simp [hi'])) hsc hgi hdy hdx hbit heq

/-- C4: in the final raster of a frame, the glyph for the chunk symbol at
position `i` is rasterized with top-left pixel origin
`((i % COLS) * GLYPH_WIDTH, (i / COLS) * GLYPH_HEIGHT)`: each of its set
bits `(dx, dy)` lands at exactly that origin's cell, a function of `i`
alone. -/
theorem frame_builder_glyph_placement (data : List Char) (frame i gi dy dx : Nat)
    (hi : i < data.length) (hif : i < FRAME_CHARS)
    (hsc : strchr_hex (data.getD i (Char.ofNat 0)) = some gi)
    (hgi : gi < font.length)
    (hdy : dy < GLYPH_HEIGHT) (hdx : dx < GLYPH_WIDTH)
    (hbit : Nat.testBit (glyphRow gi dy) (7 - dx) = true)
    (hsome : (draw_frame_raster data frame).isSome = true) :
    ((draw_frame_raster data frame).getD (fun _ => 0))
        (pixel_index ((i % COLS) * GLYPH_WIDTH) ((i / COLS) * GLYPH_HEIGHT) dx dy) =
      32 + ((frame + dy + dx) % 223) := by
  obtain ⟨r', hr'⟩ := Option.isSome_iff_exists.mp hsome
  rw [hr', Option.getD_some]
  unfold draw_frame_raster at hr'
  exact frameFold_hit data frame (List.range (min data.length FRAME_CHARS))
    _ r' i gi dy dx
    (List.mem_range.mpr (lt_min hi hif)) (List.nodup_range _)
    (fun i' hi' => lt_of_lt_of_le (List.mem_range.mp hi') (min_le_right _ _))
    hsc hgi hdy hdx hbit hr'

theorem frame_builder_glyph_placement_witness :
    ((draw_frame_raster ['0', '1'] 0).getD (fun _ => 0))
        (pixel_index ((1 % COLS) * GLYPH_WIDTH) ((1 / COLS) * GLYPH_HEIGHT) 3 1) =
      32 + ((0 + 1 + 3) % 223) :=
  frame_builder_glyph_placement ['0', '1'] 0 1 1 1 3
    (by decide) (by decide) (by decide) (by decide) (by decide) (by decide)
    (by decide) (by rfl)

theorem rowFold_palette (x y dy row frame : Nat) (l : List Nat) :
    ∀ r, (∀ j, r j = 0 ∨ (32 ≤ r j ∧ r j ≤ 254)) →
      ∀ j, (l.foldl (rowStep x y dy row frame) r) j = 0 ∨
        (32 ≤ (l.foldl (rowStep x y dy row frame) r) j ∧
          (l.foldl (rowStep x y dy row frame) r) j ≤ 254) := by
  induction l with
  | nil => exact fun r hr => hr
  | cons a t ih =>
    intro r hr j
    simp only [List.foldl_cons]
    refine ih _ (fun j' => ?_) j
    unfold rowStep
    split
    · unfold updatePixel
      by_cases hj : j' = pixel_index x y a dy
      · rw [if_pos hj]
        have := Nat.mod_lt (frame + dy + a) (show 0 < 223 from by omega)
        omega
      · rw [if_neg hj]
        exact hr j'
    · exact hr j'

theorem glyphFold_palette (x y frame gi : Nat) (l : List Nat) :
    ∀ r, (∀ j, r j = 0 ∨ (32 ≤ r j ∧ r j ≤ 254)) →
      ∀ j, (l.foldl (glyphStep x y frame gi) r) j = 0 ∨
        (32 ≤ (l.foldl (glyphStep x y frame gi) r) j ∧
          (l.foldl (glyphStep x y frame gi) r) j ≤ 254) := by
  induction l with
  | nil => exact fun r hr => hr
  | cons a t ih =>
    intro r hr j
    simp only [List.foldl_cons]
    exact ih _ (rowFold_palette x y a (glyphRow gi a) frame _ r hr) j

theorem draw_char_palette (r : Nat → Nat) (x y : Nat) (c : Char) (frame : Nat)
    (hr : ∀ j, r j = 0 ∨ (32 ≤ r j ∧ r j ≤ 254)) :
    ∀ r', draw_char r x y c frame = some r' →
      ∀ j, r' j = 0 ∨ (32 ≤ r' j ∧ r' j ≤ 254) := by
  intro r' heq
  cases hsc : strchr_hex c with
  | none =>
    rw [draw_char_no_match r x y c frame hsc] at heq
    injection heq with heq
    rw [← heq]
    exact hr
  | some gi =>
    by_cases hgi : gi < font.length
    · rw [draw_char_some r x y c frame gi hsc hgi] at heq
      injection heq with heq
      rw [← heq]
      exact glyphFold_palette x y frame gi _ r hr
    · rw [draw_char_oob r x y c frame gi hsc hgi] at heq
      exact absurd heq (by simp)

theorem frameFold_palette (data : List Char) (frame : Nat) (l : List Nat) :
    ∀ r r', (∀ j, r j = 0 ∨ (32 ≤ r j ∧ r j ≤ 254)) →
      l.foldl (frameStep data frame) (some r) = some r' →
      ∀ j, r' j = 0 ∨ (32 ≤ r' j ∧ r' j ≤ 254) := by
  induction l with
  | nil =>
    intro r r' hr heq
    injection heq with heq
    rw [← heq]
    exact hr
  | cons a t ih =>
    intro r r' hr heq
    simp only [List.foldl_cons] at heq
    cases hstep : draw_char r ((a % COLS) * GLYPH_WIDTH)
        ((a / COLS) * GLYPH_HEIGHT) (data.getD a (Char.ofNat 0)) frame with
    | none =>
      rw [show frameStep data frame (some r) a = draw_char r ((a % COLS) * GLYPH_WIDTH)
            ((a / COLS) * GLYPH_HEIGHT) (data.getD a (Char.ofNat 0)) frame from rfl,
          hstep] at heq
      rw [frameFold_none data frame t] at heq
      exact absurd heq (by simp)
    | some r1 =>
      rw [show frameStep data frame (some r) a = draw_char r ((a % COLS) * GLYPH_WIDTH)
            ((a / COLS) * GLYPH_HEIGHT) (data.getD a (Char.ofNat 0)) frame from rfl,
          hstep] at heq
      exact ih r1 r' (draw_char_palette r _ _ _ frame hr r1 hstep) heq

/-- C9: every pixel of an emitted frame is either 0 (the background left
by the `calloc` initialization) or a brightness in `32..254`; in
particular every pixel value is a valid index into the 256-entry
palette. -/
theorem frame_pixels_palette_range (data : List Char) (frame j : Nat)
    (hsome : (draw_frame_raster data frame).isSome = true) :
    (((draw_frame_raster data frame).getD (fun _ => 0)) j = 0 ∨
      (32 ≤ ((draw_frame_raster data frame).getD (fun _ => 0)) j ∧
        ((draw_frame_raster data frame).getD (fun _ => 0)) j ≤ 254)) ∧
      ((draw_frame_raster data frame).getD (fun _ => 0)) j < COLOR_COUNT := by
  obtain ⟨r', hr'⟩ := Option.isSome_iff_exists.mp hsome
  rw [hr', Option.getD_some]
  unfold draw_frame_raster at hr'
  have h := frameFold_palette data frame
    (List.range (min data.length FRAME_CHARS)) _ r' (fun j => by omega) hr' j
  unfold COLOR_COUNT
  omega

theorem frame_pixels_palette_range_witness :
    (((draw_frame_raster ['0'] 0).getD (fun _ => 0)) 0 = 0 ∨
      (32 ≤ ((draw_frame_raster ['0'] 0).getD (fun _ => 0)) 0 ∧
        ((draw_frame_raster ['0'] 0).getD (fun _ => 0)) 0 ≤ 254)) ∧
      ((draw_frame_raster ['0'] 0).getD (fun _ => 0)) 0 < COLOR_COUNT :=
  frame_pixels_palette_range ['0'] 0 0 (by rfl)

/-! ## Program outcome (src/gptgif.c lines 69-127) -/

/-- Observable outcome of one program run. -/
inductive ProgOutcome where
  | usage_error : ProgOutcome
  | fatal_output_open : ProgOutcome
  | success : List (List Char) → ProgOutcome

/-- The animation frames (chunks handed to `draw_frame`) a run emits. -/
def framesEmitted : ProgOutcome → List (List Char)
  | .success fs => fs
  | _ => []

/-- The process exit status: `none` when the process aborts without
reaching a `return`. -/
def exitStatus : ProgOutcome → Option Nat
  | .usage_error => some 1
  | .fatal_output_open => none
  | .success _ => some 0

/-- The control flow of `main` (src/gptgif.c lines 69-127).  `argv` is the
full argument vector (`argv.length = argc`); `files` are the trailing
input arguments with `none` for an unreadable file; `gifOpenOk` tells
whether `EGifOpenFileName(argv[2], ...)` succeeded.  The external encoder
(gif_lib) is not part of this repository; modelled from the spec: open
failure of the output container is fatal and aborts the process — the C
code performs no NULL check and the very next call,
`EGifPutScreenDesc(gif, ...)` (line 116), dereferences the failed (NULL)
handle before any frame is drawn.  `malloc`/`realloc` failures are
modelled separately (`hexBufAfter`) and assumed absent here. -/
def main_model (argv : List String) (files : List (Option (List Nat)))
    (gifOpenOk : Bool) : ProgOutcome :=
  if argv.length < 4 ∨ argv.getD 1 "" ≠ "cf" then .usage_error
  else if gifOpenOk then .success (chunkLoop (serializeHex files) 0)
  else .fatal_output_open

/-- C8: with a well-formed command line, failure to open the output
container is fatal — the process aborts (no exit status) and emits no
frames — while on normal completion the program emits its frames and
exits with status 0. -/
theorem main_output_open_fatal (argv : List String)
    (files : List (Option (List Nat)))
    (hargc : 4 ≤ argv.length) (hcf : argv.getD 1 "" = "cf") :
    main_model argv files false = .fatal_output_open ∧
      framesEmitted (main_model argv files false) = [] ∧
      exitStatus (main_model argv files false) = none ∧
      main_model argv files true =
        .success (chunkLoop (serializeHex files) 0) ∧
      exitStatus (main_model argv files true) = some 0 := by
  have hok : ¬(argv.length < 4 ∨ argv.getD 1 "" ≠ "cf") := by
    push_neg
    exact ⟨by omega, hcf⟩
  unfold main_model
  rw [if_neg hok, if_neg hok]
  exact ⟨rfl, rfl, rfl, rfl, rfl⟩

theorem main_output_open_fatal_witness :
    main_model ["gptgif", "cf", "out.gif", "in"] [] false = .fatal_output_open ∧
      framesEmitted (main_model ["gptgif", "cf", "out.gif", "in"] [] false) = [] ∧
      exitStatus (main_model ["gptgif", "cf", "out.gif", "in"] [] false) = none ∧
      main_model ["gptgif", "cf", "out.gif", "in"] [] true =
        .success (chunkLoop (serializeHex []) 0) ∧
      exitStatus (main_model ["gptgif", "cf", "out.gif", "in"] [] true) = some 0 :=
  main_output_open_fatal ["gptgif", "cf", "out.gif", "in"] []
    (by decide) (by decide)
